import Mathlib

/-!
Formal model of the undo/redo text-buffer program (src/undoredo/undoredo.cpp)
and proofs about its specification.

The program keeps one text buffer, a weight-bounded undo stack
(`WeightedUndoStack`) and an unbounded redo stack (`RedoStack`), and processes
line-based commands (CREATE / APPEND / REPLACE / DELETE / UNDO / REDO / PRINT).
Every definition below is a direct translation of the corresponding C++
function; fallible or crashing behaviour (an uncaught `std::stoi` exception, a
null-pointer dereference in `pop`) is modelled by `Option`, where `none`
means the program has no defined continuation.
-/

namespace UndoRedo

/-- `Action` in the source: the buffer before (`prev`) and after (`next`) one
edit, plus its integer weight. -/
structure Action where
  prev : String
  next : String
  weight : Int
deriving DecidableEq

/-- `WeightedUndoStack`: `nodes` lists the actions from `bottom_` (oldest,
head of the list) to `top_` (newest, last of the list), together with the
cached `totalWeight_` and the cap `maxWeight_`. -/
structure WStack where
  nodes : List Action
  totalWeight : Int
  maxWeight : Int
deriving DecidableEq

/-- `if (x < 0) x = 0;` — the defensive clamp used by `pop` and `trim`. -/
def clampNonneg (t : Int) : Int := if t < 0 then 0 else t

/-- The `while (bottom_ && totalWeight_ > maxWeight_)` loop of
`WeightedUndoStack::trim`: drop oldest nodes, subtracting their weights. -/
def trimLoop (mw : Int) : List Action → Int → List Action × Int
  | [], tw => ([], tw)
  | b :: rest, tw =>
    if mw < tw then trimLoop mw rest (tw - b.weight)
    else (b :: rest, tw)

/-- `WeightedUndoStack::trim`: run the eviction loop, then clamp the total. -/
def WStack.trim (s : WStack) : WStack :=
  let p := trimLoop s.maxWeight s.nodes s.totalWeight
  { nodes := p.1, totalWeight := clampNonneg p.2, maxWeight := s.maxWeight }

/-- `WeightedUndoStack::setMaxWeight`: clamp the new cap to be nonnegative,
then trim. -/
def WStack.setMaxWeight (s : WStack) (mw : Int) : WStack :=
  WStack.trim { s with maxWeight := if mw < 0 then 0 else mw }

/-- `WeightedUndoStack::clear`. -/
def WStack.clear (s : WStack) : WStack :=
  { s with nodes := [], totalWeight := 0 }

/-- `WeightedUndoStack::empty` (`top_ == nullptr`). -/
def WStack.empty (s : WStack) : Bool := s.nodes.isEmpty

/-- `WeightedUndoStack::push`: link a new node on the newest end, add its
weight, then trim. -/
def WStack.push (s : WStack) (a : Action) : WStack :=
  WStack.trim { s with nodes := s.nodes ++ [a], totalWeight := s.totalWeight + a.weight }

/-- `WeightedUndoStack::pop`: take the newest node's action, unlink it, and
subtract its weight with the clamp.  On an empty stack the source reads
`top_->act` through a null pointer, so there is no defined result: `none`. -/
def WStack.pop (s : WStack) : Option (Action × WStack) :=
  match s.nodes.getLast? with
  | none => none
  | some a =>
    some (a, { s with nodes := s.nodes.dropLast,
                      totalWeight := clampNonneg (s.totalWeight - a.weight) })

/-- `RedoStack::pop` (head of the list is `head_`, the newest entry); `none`
models the null-head dereference on an empty stack. -/
def RedoStack.pop : List Action → Option (Action × List Action)
  | [] => none
  | a :: rest => some (a, rest)

/-- The state held by `main`: the buffer `current`, the `created` flag, the
`maxWeight` variable, and the two stacks. -/
structure Session where
  current : String
  created : Bool
  maxWeight : Int
  undoStack : WStack
  redoStack : List Action
deriving DecidableEq

/-- The state of `main` before any input line is read. -/
def initialSession : Session :=
  { current := "", created := false, maxWeight := 0,
    undoStack := { nodes := [], totalWeight := 0, maxWeight := 0 },
    redoStack := [] }

/-- The tokenizer `get_args`: split on unquoted spaces, toggle quoting on
`"`, drop empty tokens. -/
def get_args (command : String) : List String :=
  let step := fun (st : List String × Bool × String) (c : Char) =>
    if c = ' ' ∧ st.2.1 = false then
      if st.2.2 ≠ "" then (st.1 ++ [st.2.2], st.2.1, "") else st
    else if c = '"' then (st.1, !st.2.1, st.2.2)
    else (st.1, st.2.1, st.2.2.push c)
  let r := command.data.foldl step ([], false, "")
  if r.2.2 ≠ "" then r.1 ++ [r.2.2] else r.1

/-- Character class used by `std::stoi` when skipping leading whitespace. -/
def isSpaceChar (c : Char) : Bool :=
  c = ' ' ∨ c = '\t' ∨ c = '\n' ∨ c = '\r' ∨ c = '\x0B' ∨ c = '\x0C'

/-- Accumulate the value of a maximal run of leading decimal digits. -/
def digitsToNat : List Char → Nat → Nat
  | [], acc => acc
  | c :: cs, acc =>
    if c.isDigit then digitsToNat cs (acc * 10 + (c.toNat - 48)) else acc

/-- Model of `std::stoi` (base 10): skip leading whitespace, allow one sign,
then require at least one decimal digit.  `none` models the uncaught
`std::invalid_argument` exception thrown when no digits are found. -/
def stoi (s : String) : Option Int :=
  let cs := s.data.dropWhile isSpaceChar
  let p : Bool × List Char :=
    match cs with
    | '-' :: r => (true, r)
    | '+' :: r => (false, r)
    | r => (false, r)
  match p.2 with
  | c :: r =>
    if c.isDigit then
      let v : Int := Int.ofNat (digitsToNat (c :: r) 0)
      some (if p.1 then -v else v)
    else none
  | [] => none

/-- The CREATE branch: store the capacity and the new buffer, clear both
stacks, install the (clamped) cap, and mark the session created. -/
def doCreate (st : Session) (mw : Int) (txt : String) : Session :=
  { current := txt, created := true, maxWeight := mw,
    undoStack := WStack.setMaxWeight (WStack.clear st.undoStack) mw,
    redoStack := [] }

/-- Common shape of the three mutating branches: set the buffer to the
action's `next` text, push the action onto the undo stack, clear the redo
stack. -/
def applyAction (st : Session) (a : Action) : Session :=
  { st with current := a.next, undoStack := st.undoStack.push a, redoStack := [] }

/-- The APPEND branch: record the old and the extended buffer; the weight is
the number of appended characters. -/
def doAppend (st : Session) (add : String) : Session :=
  applyAction st
    { prev := st.current, next := st.current ++ add, weight := (add.length : Int) }

/-- The REPLACE branch: replace every occurrence of `findc` by `repc`; the
weight is the number of replacements performed. -/
def doReplace (st : Session) (findc repc : Char) : Session :=
  applyAction st
    { prev := st.current,
      next := String.mk (st.current.data.map (fun ch => if ch = findc then repc else ch)),
      weight := Int.ofNat (st.current.data.countP (fun ch => decide (ch = findc))) }

/-- The DELETE branch: clamp the index into `[0, length]`, truncate the
buffer there; the weight is the number of removed characters. -/
def doDelete (st : Session) (idx0 : Int) : Session :=
  let idx1 : Int := if idx0 < 0 then 0 else idx0
  let n : Int := (st.current.length : Int)
  let idx : Int := if n < idx1 then n else idx1
  applyAction st
    { prev := st.current, next := String.mk (st.current.data.take idx.toNat),
      weight := n - idx }

/-- The UNDO branch: report an error on an empty undo stack, otherwise pop
the newest action, restore its `prev` text, and move it to the redo stack. -/
def doUndo (st : Session) : Option (Session × List String) :=
  if st.undoStack.empty then some (st, ["Error: Nothing to undo."])
  else
    match st.undoStack.pop with
    | none => none
    | some (a, u) =>
      some ({ st with current := a.prev, undoStack := u,
                      redoStack := a :: st.redoStack }, [])

/-- The REDO branch: report an error on an empty redo stack, otherwise pop
the newest undone action, restore its `next` text, and push it back onto the
undo stack (re-applying the weight cap). -/
def doRedo (st : Session) : Option (Session × List String) :=
  if st.redoStack.isEmpty then some (st, ["Error: Nothing to redo."])
  else
    match RedoStack.pop st.redoStack with
    | none => none
    | some (a, r) =>
      some ({ st with current := a.next, undoStack := st.undoStack.push a,
                      redoStack := r }, [])

/-- `args[k].empty() ? '\0' : args[k][0]` in the REPLACE branch. -/
def firstCharOr0 (s : String) : Char :=
  if s.isEmpty then Char.ofNat 0 else s.data.headD (Char.ofNat 0)

/-- One iteration of the command-dispatch in `main`, applied to the token
list of one input line.  The returned string list is what this line printed;
`none` means the program aborted (an uncaught `std::stoi` exception or a
null dereference in `pop`). -/
def runArgs (st : Session) (args : List String) : Option (Session × List String) :=
  match args with
  | [] => some (st, [])
  | command :: _ =>
    if command = "CREATE" then
      if args.length < 3 then some (st, [])
      else
        match stoi (args.getD 1 "") with
        | none => none
        | some mw => some (doCreate st mw (args.getD 2 ""), [])
    else if st.created = false then some (st, [])
    else if command = "APPEND" then
      if args.length < 2 then some (st, [])
      else some (doAppend st (args.getD 1 ""), [])
    else if command = "REPLACE" then
      if args.length < 3 then some (st, [])
      else some (doReplace st (firstCharOr0 (args.getD 1 "")) (firstCharOr0 (args.getD 2 "")), [])
    else if command = "DELETE" then
      if args.length < 2 then some (st, [])
      else
        match stoi (args.getD 1 "") with
        | none => none
        | some idx => some (doDelete st idx, [])
    else if command = "UNDO" then doUndo st
    else if command = "REDO" then doRedo st
    else if command = "PRINT" then some (st, [st.current])
    else some (st, [])

/-- Process one raw input line: empty lines are skipped, others are
tokenized by `get_args` and dispatched. -/
def runLine (st : Session) (line : String) : Option (Session × List String) :=
  if line.isEmpty then some (st, []) else runArgs st (get_args line)

/-- The `while (std::getline(...))` loop of `main`, on a list of input
lines, accumulating everything printed. -/
def runLines : Session → List String → Option (Session × List String)
  | st, [] => some (st, [])
  | st, l :: ls =>
    match runLine st l with
    | none => none
    | some p =>
      match runLines p.1 ls with
      | none => none
      | some q => some (q.1, p.2 ++ q.2)

/-- An abstract buffer-mutating command (the three mutating branches of the
dispatch, after argument decoding). -/
inductive Mut where
  | app : String → Mut
  | repl : Char → Char → Mut
  | del : Int → Mut

/-- Execute one mutating command through the corresponding branch. -/
def Mut.apply (st : Session) : Mut → Session
  | .app t => doAppend st t
  | .repl f r => doReplace st f r
  | .del i => doDelete st i

/-- Execute a list of mutating commands in order. -/
def runMuts (st : Session) (ms : List Mut) : Session :=
  ms.foldl Mut.apply st

/-- Execute `n` consecutive UNDO commands, accumulating their output. -/
def undoN : Nat → Session → Option (Session × List String)
  | 0, st => some (st, [])
  | n + 1, st =>
    match doUndo st with
    | none => none
    | some p =>
      match undoN n p.1 with
      | none => none
      | some q => some (q.1, p.2 ++ q.2)

/-- Sum of the weights of a list of actions (`Σ weight`, as cached by
`totalWeight_`). -/
def sumWeights (l : List Action) : Int := (l.map Action.weight).sum

/-- The adjacency relation of a consistent history: the later action starts
from the text the earlier one produced. -/
def actR (x y : Action) : Prop := y.prev = x.next

/-- `Threads b0 l cur`: the actions `l` (oldest first) form an unbroken
chain of edits leading from the text `b0` to the text `cur`. -/
def Threads (b0 : String) : List Action → String → Prop
  | [], cur => cur = b0
  | a :: l, cur => a.prev = b0 ∧ Threads a.next l cur

/-- Result type for the specification's description of `pop()`. -/
inductive PopSpec where
  | emptyError : PopSpec
  | ok : Action → PopSpec
deriving DecidableEq

/-- Modelled from the spec (§4.1, §4.2): `pop()` fails with `EmptyError` if
the list has no nodes, otherwise returns the newest node's Action.  Stated
only to compare with the source's `WStack.pop`, which has no error result. -/
def popAsSpecified (s : WStack) : PopSpec :=
  match s.nodes.getLast? with
  | none => PopSpec.emptyError
  | some a => PopSpec.ok a

/-- The zero-weight action recorded by `REPLACE z q` on the buffer `"ab"`
(no occurrence of `z`, so no character changes and the weight is 0). -/
def zeroRepl : Action := { prev := "ab", next := "ab", weight := 0 }

/-- The session state of a capacity-0 session on buffer `"ab"` with the
given undo nodes and redo stack (used to trace zero-weight mutations). -/
def capZeroState (l : List Action) (rd : List Action) : Session :=
  { current := "ab", created := true, maxWeight := 0,
    undoStack := { nodes := l, totalWeight := 0, maxWeight := 0 },
    redoStack := rd }

/-- The invariant of every reachable session state: the cached total weight
is the sum of the stack's weights and stays within the (nonnegative) cap,
all recorded weights are nonnegative, both stacks are chained histories, the
buffer is the `next` text of the newest undo entry, and the oldest redo
entry continues from the current buffer. -/
structure SessionInv (st : Session) : Prop where
  tw_eq : st.undoStack.totalWeight = sumWeights st.undoStack.nodes
  mw_nonneg : 0 ≤ st.undoStack.maxWeight
  tw_le : st.undoStack.totalWeight ≤ st.undoStack.maxWeight
  undo_wts : ∀ a ∈ st.undoStack.nodes, 0 ≤ a.weight
  undo_chain : List.Chain' actR st.undoStack.nodes
  top_next : ∀ a, st.undoStack.nodes.getLast? = some a → st.current = a.next
  redo_wts : ∀ a ∈ st.redoStack, 0 ≤ a.weight
  redo_chain : List.Chain' actR st.redoStack
  redo_head : ∀ a, st.redoStack.head? = some a → a.prev = st.current

/-! ### Basic lemmas about weights, clamping and the trim loop -/

theorem sumWeights_nil : sumWeights [] = 0 := rfl

theorem sumWeights_cons (a : Action) (l : List Action) :
    sumWeights (a :: l) = a.weight + sumWeights l := by
  simp [sumWeights]

theorem sumWeights_append (l₁ l₂ : List Action) :
    sumWeights (l₁ ++ l₂) = sumWeights l₁ + sumWeights l₂ := by
  simp [sumWeights]

theorem sumWeights_nonneg {l : List Action} (h : ∀ a ∈ l, 0 ≤ a.weight) :
    0 ≤ sumWeights l := by
  induction l with
  | nil => simp [sumWeights_nil]
  | cons a l ih =>
    rw [sumWeights_cons]
    have ha := h a (by simp)
    have hl := ih (fun b hb => h b (by simp [hb]))
    omega

theorem clampNonneg_of_nonneg {t : Int} (h : 0 ≤ t) : clampNonneg t = t := by
  simp [clampNonneg]
  omega

/-- The trim loop keeps a suffix of the stack, keeps the cached total equal
to the sum of the remaining weights, and (for a nonnegative cap) ends within
the cap. -/
theorem trimLoop_spec (mw : Int) :
    ∀ (l : List Action) (tw : Int), tw = sumWeights l →
      (trimLoop mw l tw).2 = sumWeights (trimLoop mw l tw).1 ∧
      (trimLoop mw l tw).1 <:+ l ∧
      (0 ≤ mw → (trimLoop mw l tw).2 ≤ mw) := by
  intro l
  induction l with
  | nil =>
    intro tw htw
    refine ⟨htw, List.suffix_rfl, ?_⟩
    intro hm
    have h0 : tw = 0 := by rw [htw, sumWeights_nil]
    have he : trimLoop mw [] tw = ([], tw) := rfl
    rw [he]
    show tw ≤ mw
    omega
  | cons b rest ih =>
    intro tw htw
    by_cases hlt : mw < tw
    · have hrec : trimLoop mw (b :: rest) tw = trimLoop mw rest (tw - b.weight) := by
        simp [trimLoop, hlt]
      have htw' : tw - b.weight = sumWeights rest := by
        rw [htw, sumWeights_cons]; ring
      obtain ⟨h1, h2, h3⟩ := ih (tw - b.weight) htw'
      exact ⟨by rw [hrec]; exact h1, by rw [hrec]; exact h2.trans (List.suffix_cons b rest),
        by rw [hrec]; exact h3⟩
    · have heq : trimLoop mw (b :: rest) tw = (b :: rest, tw) := by
        simp [trimLoop, hlt]
      refine ⟨by rw [heq]; exact htw, by rw [heq], ?_⟩
      intro _
      rw [heq]
      omega

/-- When the total is already within the cap, the trim loop does nothing. -/
theorem trimLoop_noexceed {mw tw : Int} (h : ¬ mw < tw) :
    ∀ l : List Action, trimLoop mw l tw = (l, tw) := by
  intro l
  cases l with
  | nil => rfl
  | cons b rest => simp [trimLoop, h]

/-- `trim` on a consistent stack: the surviving nodes are a suffix, the
cached total weight is their weight sum, and it is within the cap. -/
theorem trim_spec (s : WStack)
    (htw : s.totalWeight = sumWeights s.nodes)
    (hmw : 0 ≤ s.maxWeight)
    (hw : ∀ a ∈ s.nodes, 0 ≤ a.weight) :
    s.trim.nodes <:+ s.nodes ∧
    s.trim.totalWeight = sumWeights s.trim.nodes ∧
    s.trim.totalWeight ≤ s.maxWeight ∧
    s.trim.maxWeight = s.maxWeight := by
  obtain ⟨h1, h2, h3⟩ := trimLoop_spec s.maxWeight s.nodes s.totalWeight htw
  have hsub : ∀ a ∈ (trimLoop s.maxWeight s.nodes s.totalWeight).1, 0 ≤ a.weight :=
    fun a ha => hw a (h2.subset ha)
  have hnn : 0 ≤ (trimLoop s.maxWeight s.nodes s.totalWeight).2 := by
    rw [h1]; exact sumWeights_nonneg hsub
  have hcl : clampNonneg (trimLoop s.maxWeight s.nodes s.totalWeight).2 =
      (trimLoop s.maxWeight s.nodes s.totalWeight).2 := clampNonneg_of_nonneg hnn
  refine ⟨h2, ?_, ?_, rfl⟩
  · show clampNonneg (trimLoop s.maxWeight s.nodes s.totalWeight).2 =
      sumWeights (trimLoop s.maxWeight s.nodes s.totalWeight).1
    rw [hcl]
    exact h1
  · show clampNonneg (trimLoop s.maxWeight s.nodes s.totalWeight).2 ≤ s.maxWeight
    rw [hcl]
    exact h3 hmw

/-! ### Push, pop and chain helpers -/

theorem chain'_of_suffix {R : Action → Action → Prop} {l l' : List Action}
    (h : List.Chain' R l) (hs : l' <:+ l) : List.Chain' R l' := by
  obtain ⟨t, rfl⟩ := hs
  exact (List.chain'_append.mp h).2.1

theorem getLast?_of_suffix {l l' : List Action} (hs : l' <:+ l) (hne : l' ≠ []) :
    l.getLast? = l'.getLast? := by
  obtain ⟨t, rfl⟩ := hs
  exact List.getLast?_append_of_ne_nil t hne

/-- `push` on a consistent stack: the result is a suffix of the old nodes
with the new action at the newest end, and the cached total is again the
weight sum and within the cap. -/
theorem push_spec (s : WStack) (a : Action)
    (htw : s.totalWeight = sumWeights s.nodes)
    (hmw : 0 ≤ s.maxWeight)
    (hw : ∀ b ∈ s.nodes, 0 ≤ b.weight)
    (hwa : 0 ≤ a.weight) :
    (s.push a).nodes <:+ s.nodes ++ [a] ∧
    (s.push a).totalWeight = sumWeights (s.push a).nodes ∧
    (s.push a).totalWeight ≤ s.maxWeight ∧
    (s.push a).maxWeight = s.maxWeight := by
  have htw' : (s.totalWeight + a.weight) = sumWeights (s.nodes ++ [a]) := by
    rw [sumWeights_append, sumWeights_cons, sumWeights_nil, htw]
    ring
  have hw' : ∀ b ∈ s.nodes ++ [a], 0 ≤ b.weight := by
    intro b hb
    rcases List.mem_append.mp hb with h | h
    · exact hw b h
    · rw [List.mem_singleton.mp h]
      exact hwa
  exact trim_spec { s with nodes := s.nodes ++ [a], totalWeight := s.totalWeight + a.weight }
    htw' hmw hw'

/-- What `pop` does on a stack whose node list ends in `a`. -/
theorem pop_spec (s : WStack) (l : List Action) (a : Action)
    (hns : s.nodes = l ++ [a]) :
    s.pop = some (a, { nodes := l,
                       totalWeight := clampNonneg (s.totalWeight - a.weight),
                       maxWeight := s.maxWeight }) := by
  have h1 : s.nodes.getLast? = some a := by rw [hns]; exact List.getLast?_concat l
  have h2 : s.nodes.dropLast = l := by rw [hns]; exact List.dropLast_concat
  simp [WStack.pop, h1, h2]

theorem pop_empty (s : WStack) (h : s.nodes = []) : s.pop = none := by
  simp [WStack.pop, h]

/-- UNDO on a session with a non-empty undo stack. -/
theorem doUndo_nonempty {st : Session} (hne : st.undoStack.nodes ≠ []) :
    ∃ l a, st.undoStack.nodes = l ++ [a] ∧
      doUndo st = some ({ st with current := a.prev,
                                  undoStack :=
                                    { nodes := l,
                                      totalWeight :=
                                        clampNonneg (st.undoStack.totalWeight - a.weight),
                                      maxWeight := st.undoStack.maxWeight },
                                  redoStack := a :: st.redoStack }, []) := by
  obtain ⟨b, hb⟩ := Option.isSome_iff_exists.mp
    (List.getLast?_isSome.mpr hne)
  refine ⟨st.undoStack.nodes.dropLast, b, ?_, ?_⟩
  · exact (List.dropLast_append_getLast? b hb).symm
  · have hemp : st.undoStack.empty = false := by
      simp [WStack.empty, List.isEmpty_iff]
      exact hne
    have hpop := pop_spec st.undoStack st.undoStack.nodes.dropLast b
      (List.dropLast_append_getLast? b hb).symm
    simp [doUndo, hemp, hpop]

/-- UNDO on a session with an empty undo stack. -/
theorem doUndo_empty {st : Session} (h : st.undoStack.nodes = []) :
    doUndo st = some (st, ["Error: Nothing to undo."]) := by
  have hemp : st.undoStack.empty = true := by simp [WStack.empty, h]
  simp [doUndo, hemp]

/-- REDO on a session with a non-empty redo stack. -/
theorem doRedo_cons {st : Session} {a : Action} {r : List Action}
    (h : st.redoStack = a :: r) :
    doRedo st = some ({ st with current := a.next,
                                undoStack := st.undoStack.push a,
                                redoStack := r }, []) := by
  simp [doRedo, h, RedoStack.pop]

/-- REDO on a session with an empty redo stack. -/
theorem doRedo_empty {st : Session} (h : st.redoStack = []) :
    doRedo st = some (st, ["Error: Nothing to redo."]) := by
  simp [doRedo, h]

/-! ### The session invariant is preserved by every command -/

theorem inv_initial : SessionInv initialSession := by
  refine ⟨rfl, le_refl 0, le_refl 0, ?_, ?_, ?_, ?_, ?_, ?_⟩ <;>
    simp [initialSession, List.chain'_nil]

theorem inv_create (st : Session) (mw : Int) (txt : String) :
    SessionInv (doCreate st mw txt) := by
  have hu : (doCreate st mw txt).undoStack =
      { nodes := [], totalWeight := 0, maxWeight := if mw < 0 then 0 else mw } := rfl
  have hr : (doCreate st mw txt).redoStack = [] := rfl
  refine ⟨?_, ?_, ?_, ?_, ?_, ?_, ?_, ?_, ?_⟩
  · rw [hu]
    rfl
  · rw [hu]
    show (0:Int) ≤ if mw < 0 then 0 else mw
    split_ifs <;> omega
  · rw [hu]
    show (0:Int) ≤ if mw < 0 then 0 else mw
    split_ifs <;> omega
  · rw [hu]
    intro a ha
    simp at ha
  · rw [hu]
    exact List.chain'_nil
  · rw [hu]
    intro a ha
    simp at ha
  · rw [hr]
    intro a ha
    simp at ha
  · rw [hr]
    exact List.chain'_nil
  · rw [hr]
    intro a ha
    simp at ha

/-- Pushing an action that continues the current buffer preserves all the
undo-stack facts of the invariant. -/
theorem inv_push_core {st : Session} (inv : SessionInv st) {a : Action}
    (hprev : a.prev = st.current) (hwa : 0 ≤ a.weight) :
    (st.undoStack.push a).totalWeight = sumWeights (st.undoStack.push a).nodes ∧
    0 ≤ (st.undoStack.push a).maxWeight ∧
    (st.undoStack.push a).totalWeight ≤ (st.undoStack.push a).maxWeight ∧
    (∀ b ∈ (st.undoStack.push a).nodes, 0 ≤ b.weight) ∧
    List.Chain' actR (st.undoStack.push a).nodes ∧
    (∀ b, (st.undoStack.push a).nodes.getLast? = some b → a.next = b.next) := by
  obtain ⟨hsuf, htw, hle, hmax⟩ :=
    push_spec st.undoStack a inv.tw_eq inv.mw_nonneg inv.undo_wts hwa
  have hchain : List.Chain' actR (st.undoStack.nodes ++ [a]) := by
    refine List.chain'_append.mpr ⟨inv.undo_chain, List.chain'_singleton a, ?_⟩
    intro x hx y hy
    have hy' : a = y := by simpa using hy
    rw [← hy']
    show a.prev = x.next
    rw [hprev]
    exact inv.top_next x (Option.mem_def.mp hx)
  refine ⟨htw, ?_, ?_, ?_, chain'_of_suffix hchain hsuf, ?_⟩
  · rw [hmax]
    exact inv.mw_nonneg
  · rw [hmax]
    exact hle
  · intro b hb
    rcases List.mem_append.mp (hsuf.subset hb) with h | h
    · exact inv.undo_wts b h
    · rw [List.mem_singleton.mp h]
      exact hwa
  · intro b hb
    by_cases hne : (st.undoStack.push a).nodes = []
    · rw [hne] at hb
      cases hb
    · have := getLast?_of_suffix hsuf hne
      rw [← this, List.getLast?_concat] at hb
      cases hb
      rfl

theorem inv_applyAction {st : Session} (inv : SessionInv st) {a : Action}
    (hprev : a.prev = st.current) (hwa : 0 ≤ a.weight) :
    SessionInv (applyAction st a) := by
  obtain ⟨h1, h2, h3, h4, h5, h6⟩ := inv_push_core inv hprev hwa
  exact ⟨h1, h2, h3, h4, h5, h6, by simp [applyAction], by simp [applyAction, List.chain'_nil],
    by simp [applyAction]⟩

theorem inv_doAppend {st : Session} (inv : SessionInv st) (t : String) :
    SessionInv (doAppend st t) :=
  inv_applyAction inv rfl (Int.ofNat_nonneg t.length)

theorem inv_doReplace {st : Session} (inv : SessionInv st) (f r : Char) :
    SessionInv (doReplace st f r) :=
  inv_applyAction inv rfl (Int.ofNat_nonneg _)

theorem inv_doDelete {st : Session} (inv : SessionInv st) (i : Int) :
    SessionInv (doDelete st i) := by
  apply inv_applyAction inv rfl
  show (0:Int) ≤ (st.current.length : Int) -
    (if (st.current.length : Int) < (if i < 0 then 0 else i)
     then (st.current.length : Int) else (if i < 0 then 0 else i))
  split_ifs <;> omega

theorem inv_undo {st : Session} (inv : SessionInv st) {p : Session × List String}
    (h : doUndo st = some p) : SessionInv p.1 := by
  by_cases hne : st.undoStack.nodes = []
  · rw [doUndo_empty hne] at h
    injection h with h'
    subst h'
    exact inv
  · obtain ⟨l, a, hnodes, hrun⟩ := doUndo_nonempty hne
    rw [hrun] at h
    injection h with h'
    subst h'
    have hwa : 0 ≤ a.weight := inv.undo_wts a (by rw [hnodes]; simp)
    have hwl : ∀ b ∈ l, 0 ≤ b.weight := fun b hb =>
      inv.undo_wts b (by rw [hnodes]; simp [hb])
    have hsum : st.undoStack.totalWeight = sumWeights l + a.weight := by
      rw [inv.tw_eq, hnodes, sumWeights_append, sumWeights_cons, sumWeights_nil]
      ring
    have hclamp : clampNonneg (st.undoStack.totalWeight - a.weight) = sumWeights l := by
      rw [hsum, show sumWeights l + a.weight - a.weight = sumWeights l by ring]
      exact clampNonneg_of_nonneg (sumWeights_nonneg hwl)
    have hchain := inv.undo_chain
    rw [hnodes] at hchain
    obtain ⟨hcl, _, hlast⟩ := List.chain'_append.mp hchain
    have hglast : st.undoStack.nodes.getLast? = some a := by
      rw [hnodes]
      exact List.getLast?_concat l
    have hcur : st.current = a.next := inv.top_next a hglast
    refine ⟨hclamp, inv.mw_nonneg, ?_, hwl, hcl, ?_, ?_, ?_, ?_⟩
    · show clampNonneg (st.undoStack.totalWeight - a.weight) ≤ st.undoStack.maxWeight
      rw [hclamp]
      have h1 : sumWeights l ≤ st.undoStack.totalWeight := by omega
      exact le_trans h1 inv.tw_le
    · intro b hb
      exact hlast b (Option.mem_def.mpr hb) a (Option.mem_def.mpr rfl)
    · intro b hb
      rcases List.mem_cons.mp hb with h | h
      · rw [h]
        exact hwa
      · exact inv.redo_wts b h
    · refine List.chain'_cons'.mpr ⟨?_, inv.redo_chain⟩
      intro y hy
      show y.prev = a.next
      rw [inv.redo_head y (Option.mem_def.mp hy), hcur]
    · intro b hb
      have hab : a = b := by simpa using hb
      rw [← hab]

theorem inv_redo {st : Session} (inv : SessionInv st) {p : Session × List String}
    (h : doRedo st = some p) : SessionInv p.1 := by
  cases hr : st.redoStack with
  | nil =>
    rw [doRedo_empty hr] at h
    injection h with h'
    subst h'
    exact inv
  | cons a r =>
    rw [doRedo_cons hr] at h
    injection h with h'
    subst h'
    have hwa : 0 ≤ a.weight := inv.redo_wts a (by rw [hr]; simp)
    have hprev : a.prev = st.current := inv.redo_head a (by rw [hr]; rfl)
    obtain ⟨h1, h2, h3, h4, h5, h6⟩ := inv_push_core inv hprev hwa
    have hrchain := inv.redo_chain
    rw [hr] at hrchain
    refine ⟨h1, h2, h3, h4, h5, h6, ?_, hrchain.tail, ?_⟩
    · intro b hb
      exact inv.redo_wts b (by rw [hr]; simp [hb])
    · intro b hb
      exact (List.chain'_cons'.mp hrchain).1 b (Option.mem_def.mpr hb)

theorem inv_runArgs {st : Session} (inv : SessionInv st) {args : List String}
    {p : Session × List String} (h : runArgs st args = some p) : SessionInv p.1 := by
  cases args with
  | nil =>
    injection h with h'
    subst h'
    exact inv
  | cons command rest =>
    simp only [runArgs] at h
    by_cases h1 : command = "CREATE"
    · simp only [if_pos h1] at h
      by_cases h2 : (command :: rest).length < 3
      · simp only [if_pos h2] at h
        injection h with h'
        subst h'
        exact inv
      · simp only [if_neg h2] at h
        cases hs : stoi ((command :: rest).getD 1 "") with
        | none =>
          rw [hs] at h
          exact Option.noConfusion h
        | some mw =>
          rw [hs] at h
          injection h with h'
          subst h'
          exact inv_create st mw _
    · simp only [if_neg h1] at h
      by_cases h2 : st.created = false
      · simp only [if_pos h2] at h
        injection h with h'
        subst h'
        exact inv
      · simp only [if_neg h2] at h
        by_cases h3 : command = "APPEND"
        · simp only [if_pos h3] at h
          by_cases h4 : (command :: rest).length < 2
          · simp only [if_pos h4] at h
            injection h with h'
            subst h'
            exact inv
          · simp only [if_neg h4] at h
            injection h with h'
            subst h'
            exact inv_doAppend inv _
        · simp only [if_neg h3] at h
          by_cases h5 : command = "REPLACE"
          · simp only [if_pos h5] at h
            by_cases h6 : (command :: rest).length < 3
            · simp only [if_pos h6] at h
              injection h with h'
              subst h'
              exact inv
            · simp only [if_neg h6] at h
              injection h with h'
              subst h'
              exact inv_doReplace inv _ _
          · simp only [if_neg h5] at h
            by_cases h7 : command = "DELETE"
            · simp only [if_pos h7] at h
              by_cases h8 : (command :: rest).length < 2
              · simp only [if_pos h8] at h
                injection h with h'
                subst h'
                exact inv
              · simp only [if_neg h8] at h
                cases hs : stoi ((command :: rest).getD 1 "") with
                | none =>
                  rw [hs] at h
                  exact Option.noConfusion h
                | some idx =>
                  rw [hs] at h
                  injection h with h'
                  subst h'
                  exact inv_doDelete inv _
            · simp only [if_neg h7] at h
              by_cases h9 : command = "UNDO"
              · simp only [if_pos h9] at h
                exact inv_undo inv h
              · simp only [if_neg h9] at h
                by_cases h10 : command = "REDO"
                · simp only [if_pos h10] at h
                  exact inv_redo inv h
                · simp only [if_neg h10] at h
                  by_cases h11 : command = "PRINT"
                  · simp only [if_pos h11] at h
                    injection h with h'
                    subst h'
                    exact inv
                  · simp only [if_neg h11] at h
                    injection h with h'
                    subst h'
                    exact inv

theorem inv_runLine {st : Session} (inv : SessionInv st) {line : String}
    {p : Session × List String} (h : runLine st line = some p) : SessionInv p.1 := by
  unfold runLine at h
  split at h
  · injection h with h'
    subst h'
    exact inv
  · exact inv_runArgs inv h

theorem inv_runLines {lines : List String} : ∀ {st : Session} {p : Session × List String},
    SessionInv st → runLines st lines = some p → SessionInv p.1 := by
  induction lines with
  | nil =>
    intro st p inv h
    injection h with h'
    subst h'
    exact inv
  | cons l ls ih =>
    intro st p inv h
    simp only [runLines] at h
    cases hl : runLine st l with
    | none =>
      rw [hl] at h
      exact Option.noConfusion h
    | some q =>
      rw [hl] at h
      dsimp only at h
      cases hr : runLines q.1 ls with
      | none =>
        rw [hr] at h
        exact Option.noConfusion h
      | some w =>
        rw [hr] at h
        injection h with h'
        subst h'
        have hw := ih (inv_runLine inv hl) hr
        exact hw

/-- Every state reachable from program start satisfies the invariant. -/
theorem inv_reachable {lines : List String} {p : Session × List String}
    (h : runLines initialSession lines = some p) : SessionInv p.1 :=
  inv_runLines inv_initial h

/-! ### Mutation sequences without eviction, and draining the undo stack -/

theorem threads_snoc : ∀ (l : List Action) (b0 cur : String) (a : Action),
    Threads b0 l cur → a.prev = cur → Threads b0 (l ++ [a]) a.next := by
  intro l
  induction l with
  | nil =>
    intro b0 cur a h hp
    refine ⟨?_, rfl⟩
    rw [hp]
    exact h
  | cons c l ih =>
    intro b0 cur a h hp
    exact ⟨h.1, ih c.next cur a h.2 hp⟩

theorem threads_unsnoc : ∀ (l : List Action) (b0 cur : String) (a : Action),
    Threads b0 (l ++ [a]) cur → Threads b0 l a.prev := by
  intro l
  induction l with
  | nil =>
    intro b0 cur a h
    exact h.1
  | cons c l ih =>
    intro b0 cur a h
    exact ⟨h.1, ih c.next cur a h.2⟩

/-- Each mutating command is `applyAction` with an action starting at the
current buffer. -/
theorem mut_apply_eq (st : Session) (m : Mut) :
    ∃ a : Action, a.prev = st.current ∧ Mut.apply st m = applyAction st a := by
  cases m with
  | app t => exact ⟨_, rfl, rfl⟩
  | repl f r => exact ⟨_, rfl, rfl⟩
  | del i => exact ⟨_, rfl, rfl⟩

theorem trimLoop_suffix (mw : Int) :
    ∀ (l : List Action) (tw : Int), (trimLoop mw l tw).1 <:+ l := by
  intro l
  induction l with
  | nil =>
    intro tw
    exact List.suffix_rfl
  | cons b rest ih =>
    intro tw
    by_cases hlt : mw < tw
    · rw [show trimLoop mw (b :: rest) tw = trimLoop mw rest (tw - b.weight) by
        simp [trimLoop, hlt]]
      exact (ih _).trans (List.suffix_cons b rest)
    · rw [show trimLoop mw (b :: rest) tw = (b :: rest, tw) by simp [trimLoop, hlt]]

theorem push_nodes_suffix (s : WStack) (a : Action) :
    (s.push a).nodes <:+ s.nodes ++ [a] :=
  trimLoop_suffix _ _ _

theorem push_length_le (s : WStack) (a : Action) :
    (s.push a).nodes.length ≤ s.nodes.length + 1 := by
  have h := (push_nodes_suffix s a).length_le
  simpa using h

/-- A push that kept the count grew the node list by exactly the new
action: nothing was evicted. -/
theorem push_noevict (s : WStack) (a : Action)
    (h : (s.push a).nodes.length = s.nodes.length + 1) :
    (s.push a).nodes = s.nodes ++ [a] := by
  apply (push_nodes_suffix s a).eq_of_length
  simpa using h

theorem mut_apply_length_le (st : Session) (m : Mut) :
    (Mut.apply st m).undoStack.nodes.length ≤ st.undoStack.nodes.length + 1 := by
  obtain ⟨a, _, he⟩ := mut_apply_eq st m
  rw [he]
  exact push_length_le _ _

theorem runMuts_length_le (ms : List Mut) : ∀ st : Session,
    (runMuts st ms).undoStack.nodes.length ≤ st.undoStack.nodes.length + ms.length := by
  induction ms with
  | nil =>
    intro st
    simp [runMuts]
  | cons m ms ih =>
    intro st
    have h1 := mut_apply_length_le st m
    have h2 := ih (Mut.apply st m)
    simp only [runMuts, List.foldl_cons] at h2 ⊢
    simp only [List.length_cons]
    omega

/-- If no eviction happened across a run of mutations (witnessed by the
final node count), the undo stack still chains the initial buffer to the
final one. -/
theorem muts_threads (ms : List Mut) : ∀ (st : Session) (b0 : String),
    (runMuts st ms).undoStack.nodes.length = st.undoStack.nodes.length + ms.length →
    Threads b0 st.undoStack.nodes st.current →
    Threads b0 (runMuts st ms).undoStack.nodes (runMuts st ms).current := by
  induction ms with
  | nil =>
    intro st b0 _ ht
    simpa [runMuts] using ht
  | cons m ms ih =>
    intro st b0 hlen ht
    obtain ⟨a, hprev, he⟩ := mut_apply_eq st m
    have hr : runMuts st (m :: ms) = runMuts (Mut.apply st m) ms := by
      simp [runMuts]
    rw [hr] at hlen ⊢
    have h1 := mut_apply_length_le st m
    have h2 := runMuts_length_le ms (Mut.apply st m)
    simp only [List.length_cons] at hlen
    have hstep : (Mut.apply st m).undoStack.nodes.length =
        st.undoStack.nodes.length + 1 := by omega
    have hpush : (Mut.apply st m).undoStack.nodes = st.undoStack.nodes ++ [a] := by
      rw [he]
      apply push_noevict
      have h3 := hstep
      rw [he] at h3
      exact h3
    have hcur : (Mut.apply st m).current = a.next := by
      rw [he]
      rfl
    have ht' : Threads b0 (Mut.apply st m).undoStack.nodes (Mut.apply st m).current := by
      rw [hpush, hcur]
      exact threads_snoc _ _ _ _ ht hprev
    exact ih (Mut.apply st m) b0 (by omega) ht'

/-- UNDO on a session whose undo stack decomposes as `l ++ [a]`. -/
theorem doUndo_concat {st : Session} {l : List Action} {a : Action}
    (hn : st.undoStack.nodes = l ++ [a]) :
    doUndo st = some ({ st with current := a.prev,
                                undoStack :=
                                  { nodes := l,
                                    totalWeight :=
                                      clampNonneg (st.undoStack.totalWeight - a.weight),
                                    maxWeight := st.undoStack.maxWeight },
                                redoStack := a :: st.redoStack }, []) := by
  have hemp : st.undoStack.empty = false := by
    simp [WStack.empty, List.isEmpty_iff, hn]
  simp [doUndo, hemp, pop_spec st.undoStack l a hn]

/-- Running one UNDO per stacked action drains a chained undo stack and
returns the buffer to the base text, printing nothing. -/
theorem undoN_drain : ∀ (l : List Action) (st : Session) (b0 : String),
    st.undoStack.nodes = l → Threads b0 l st.current →
    ∃ s2 : Session, undoN l.length st = some (s2, []) ∧ s2.current = b0 ∧
      s2.undoStack.nodes = [] := by
  intro l
  induction l using List.reverseRecOn with
  | nil =>
    intro st b0 _ ht
    exact ⟨st, rfl, ht, by assumption⟩
  | append_singleton l a ih =>
    intro st b0 hn ht
    have hu := doUndo_concat hn
    obtain ⟨s2, hrec, hcur, hnil⟩ :=
      ih { st with current := a.prev,
                   undoStack :=
                     { nodes := l,
                       totalWeight := clampNonneg (st.undoStack.totalWeight - a.weight),
                       maxWeight := st.undoStack.maxWeight },
                   redoStack := a :: st.redoStack } b0 rfl
        (threads_unsnoc l b0 st.current a ht)
    refine ⟨s2, ?_, hcur, hnil⟩
    rw [show (l ++ [a]).length = l.length + 1 by simp]
    simp only [undoN]
    rw [hu]
    dsimp only
    rw [hrec]
    rfl

/-! ### Further helpers: extensionality, no-eviction pushes, crash-freedom -/

theorem wstack_eq {u v : WStack} (h1 : u.nodes = v.nodes)
    (h2 : u.totalWeight = v.totalWeight) (h3 : u.maxWeight = v.maxWeight) : u = v := by
  cases u
  cases v
  cases h1
  cases h2
  cases h3
  rfl

theorem session_eq {s t : Session} (h1 : s.current = t.current)
    (h2 : s.created = t.created) (h3 : s.maxWeight = t.maxWeight)
    (h4 : s.undoStack = t.undoStack) (h5 : s.redoStack = t.redoStack) : s = t := by
  cases s
  cases t
  cases h1
  cases h2
  cases h3
  cases h4
  cases h5
  rfl

/-- A push that stays within the cap evicts nothing. -/
theorem push_no_evict_of_le (u : WStack) (a : Action)
    (h : u.totalWeight + a.weight ≤ u.maxWeight) :
    (u.push a).nodes = u.nodes ++ [a] ∧
    (u.push a).totalWeight = clampNonneg (u.totalWeight + a.weight) := by
  have hno : ¬ (u.maxWeight < u.totalWeight + a.weight) := by omega
  unfold WStack.push WStack.trim
  dsimp only
  rw [trimLoop_noexceed hno (u.nodes ++ [a])]
  exact ⟨rfl, rfl⟩

theorem weights_all_zero : ∀ (l : List Action), sumWeights l = 0 →
    (∀ b ∈ l, 0 ≤ b.weight) → ∀ b ∈ l, b.weight = 0 := by
  intro l
  induction l with
  | nil =>
    intro _ _ b hb
    simp at hb
  | cons c l ih =>
    intro hs hw b hb
    rw [sumWeights_cons] at hs
    have hc := hw c (by simp)
    have hl0 : 0 ≤ sumWeights l := sumWeights_nonneg (fun x hx => hw x (by simp [hx]))
    rcases List.mem_cons.mp hb with h | h
    · rw [h]
      omega
    · exact ih (by omega) (fun x hx => hw x (by simp [hx])) b h

/-- With cap 0, a positive-weight push on top of zero-weight history drains
the whole trim loop, the new action included. -/
theorem trimLoop_drops_all (a : Action) (hw : 0 < a.weight) :
    ∀ l : List Action, (∀ b ∈ l, b.weight = 0) →
    trimLoop 0 (l ++ [a]) a.weight = ([], 0) := by
  intro l
  induction l with
  | nil =>
    intro _
    simp [trimLoop, hw, sub_self]
  | cons b rest ih =>
    intro hall
    have hb : b.weight = 0 := hall b (by simp)
    simp only [List.cons_append, trimLoop]
    rw [if_pos hw, hb, sub_zero]
    exact ih (fun c hc => hall c (by simp [hc]))

theorem doUndo_isSome (st : Session) : doUndo st ≠ none := by
  by_cases h : st.undoStack.nodes = []
  · rw [doUndo_empty h]
    simp
  · obtain ⟨l, a, _, hu⟩ := doUndo_nonempty h
    rw [hu]
    simp

theorem doRedo_isSome (st : Session) : doRedo st ≠ none := by
  cases hr : st.redoStack with
  | nil =>
    rw [doRedo_empty hr]
    simp
  | cons a r =>
    rw [doRedo_cons hr]
    simp

/-- Running a concatenation of line lists composes the two runs. -/
theorem runLines_append : ∀ (l1 : List String) (st : Session) (l2 : List String),
    runLines st (l1 ++ l2) =
      match runLines st l1 with
      | none => none
      | some p =>
        match runLines p.1 l2 with
        | none => none
        | some q => some (q.1, p.2 ++ q.2) := by
  intro l1
  induction l1 with
  | nil =>
    intro st l2
    simp only [List.nil_append, runLines]
    cases hr : runLines st l2 with
    | none => rfl
    | some q => simp
  | cons l ls ih =>
    intro st l2
    simp only [List.cons_append, runLines]
    cases hl : runLine st l with
    | none => rfl
    | some p =>
      dsimp only
      simp only [List.append_eq]
      rw [ih p.1 l2]
      cases h1 : runLines p.1 ls with
      | none => rfl
      | some q =>
        dsimp only
        cases h2 : runLines q.1 l2 with
        | none => rfl
        | some w =>
          dsimp only
          rw [List.append_assoc]

/-! ### Concrete cap-0 session with zero-weight mutations (for C9) -/

theorem push_zero_eq (j : Nat) :
    WStack.push { nodes := List.replicate j zeroRepl, totalWeight := 0, maxWeight := 0 }
        zeroRepl =
      { nodes := List.replicate (j + 1) zeroRepl, totalWeight := 0, maxWeight := 0 } := by
  obtain ⟨h1, h2⟩ := push_no_evict_of_le
    { nodes := List.replicate j zeroRepl, totalWeight := 0, maxWeight := 0 } zeroRepl
    (by show (0:Int) + zeroRepl.weight ≤ (0:Int); decide)
  refine wstack_eq ?_ ?_ rfl
  · rw [h1, List.replicate_succ' j zeroRepl]
  · rw [h2]
    show clampNonneg ((0:Int) + zeroRepl.weight) = (0:Int)
    decide

theorem replace_step (j : Nat) (rd : List Action) :
    runLine (capZeroState (List.replicate j zeroRepl) rd) "REPLACE z q" =
      some (capZeroState (List.replicate (j + 1) zeroRepl) [], []) := by
  have h1 : runLine (capZeroState (List.replicate j zeroRepl) rd) "REPLACE z q" =
      some (applyAction (capZeroState (List.replicate j zeroRepl) rd) zeroRepl, []) := rfl
  rw [h1]
  refine congrArg some (congrArg (fun s => (s, ([] : List String))) ?_)
  refine session_eq rfl rfl rfl ?_ rfl
  exact push_zero_eq j

theorem replace_phase : ∀ (k j : Nat),
    runLines (capZeroState (List.replicate j zeroRepl) []) (List.replicate k "REPLACE z q") =
      some (capZeroState (List.replicate (j + k) zeroRepl) [], []) := by
  intro k
  induction k with
  | zero =>
    intro j
    rfl
  | succ k ih =>
    intro j
    rw [show List.replicate (k + 1) "REPLACE z q" =
        "REPLACE z q" :: List.replicate k "REPLACE z q" from rfl]
    simp only [runLines]
    rw [replace_step j []]
    dsimp only
    rw [ih (j + 1)]
    rw [(by omega : j + 1 + k = j + (k + 1))]
    rfl

theorem undo_step (j : Nat) (rd : List Action) :
    runLine (capZeroState (List.replicate (j + 1) zeroRepl) rd) "UNDO" =
      some (capZeroState (List.replicate j zeroRepl) (zeroRepl :: rd), []) := by
  have h1 : runLine (capZeroState (List.replicate (j + 1) zeroRepl) rd) "UNDO" =
      doUndo (capZeroState (List.replicate (j + 1) zeroRepl) rd) := rfl
  rw [h1]
  have h2 : (capZeroState (List.replicate (j + 1) zeroRepl) rd).undoStack.nodes =
      List.replicate j zeroRepl ++ [zeroRepl] := List.replicate_succ' j zeroRepl
  rw [doUndo_concat h2]
  refine congrArg some (congrArg (fun s => (s, ([] : List String))) ?_)
  refine session_eq rfl rfl rfl ?_ rfl
  refine wstack_eq rfl ?_ rfl
  show clampNonneg ((0:Int) - zeroRepl.weight) = (0:Int)
  decide

theorem undo_phase : ∀ (k : Nat) (rd : List Action),
    runLines (capZeroState (List.replicate k zeroRepl) rd) (List.replicate k "UNDO") =
      some (capZeroState [] (List.replicate k zeroRepl ++ rd), []) := by
  intro k
  induction k with
  | zero =>
    intro rd
    rfl
  | succ k ih =>
    intro rd
    rw [show List.replicate (k + 1) "UNDO" = "UNDO" :: List.replicate k "UNDO" from rfl]
    simp only [runLines]
    rw [undo_step k rd]
    dsimp only
    rw [ih (zeroRepl :: rd)]
    have he : List.replicate k zeroRepl ++ (zeroRepl :: rd) =
        List.replicate (k + 1) zeroRepl ++ rd := by
      rw [List.replicate_succ' k zeroRepl]
      simp
    rw [he]
    rfl

/-! ### Claims C1 to C4 -/

/-- C1: the claim that, for every capacity, a sequence of
Append/Replace/Delete followed by as many Undo commands restores the
post-Initialize buffer is false on the code: with capacity 2 the single
`APPEND xyz` (weight 3) is evicted by the trim on push, the `UNDO` only
prints the nothing-to-undo error, and the buffer stays `"abcxyz"` instead
of returning to `"abc"`. -/
theorem C1_counterexample :
    (runLines initialSession ["CREATE 2 abc"]).map (fun p => p.1.current) = some "abc" ∧
    (runLines initialSession ["CREATE 2 abc", "APPEND xyz", "UNDO"]).map
        (fun p => p.1.current) = some "abcxyz" ∧
    ("abcxyz" : String) ≠ "abc" := by
  refine ⟨rfl, rfl, by decide⟩

/-- C1 (amended): after an Initialize, executing Append/Replace/Delete
commands and then an equal number of Undo commands returns the buffer to
its post-Initialize value, provided the weight cap evicted nothing during
the mutations (witnessed by the undo stack holding one node per mutation);
all those Undo commands succeed, printing nothing. -/
theorem C1_undo_returns (st : Session) (mw : Int) (txt : String) (ms : List Mut)
    (hlen : (runMuts (doCreate st mw txt) ms).undoStack.nodes.length = ms.length) :
    ∃ s2 : Session, undoN ms.length (runMuts (doCreate st mw txt) ms) = some (s2, []) ∧
      s2.current = txt := by
  have h0 : (doCreate st mw txt).undoStack.nodes = [] := rfl
  have ht0 : Threads txt (doCreate st mw txt).undoStack.nodes
      (doCreate st mw txt).current := by
    show Threads txt [] txt
    rfl
  have hlen' : (runMuts (doCreate st mw txt) ms).undoStack.nodes.length =
      (doCreate st mw txt).undoStack.nodes.length + ms.length := by
    rw [h0]
    simpa using hlen
  have ht := muts_threads ms (doCreate st mw txt) txt hlen' ht0
  obtain ⟨s2, h1, h2, _⟩ := undoN_drain (runMuts (doCreate st mw txt) ms).undoStack.nodes
    (runMuts (doCreate st mw txt) ms) txt rfl ht
  rw [hlen] at h1
  exact ⟨s2, h1, h2⟩

/-- C1 witness: capacity 100, `APPEND de` after `CREATE 100 abc`, then one
UNDO, returns the buffer to `"abc"`. -/
theorem C1_undo_returns_witness :
    ∃ s2 : Session,
      undoN [Mut.app "de"].length
          (runMuts (doCreate initialSession 100 "abc") [Mut.app "de"]) =
        some (s2, []) ∧ s2.current = "abc" :=
  C1_undo_returns initialSession 100 "abc" [Mut.app "de"] (by decide)

/-- C2: the claim that malformed lines are always silently skipped with no
crash is false for non-numeric integer tokens: on the line `CREATE x y`
the program calls `std::stoi("x")`, which throws an uncaught
`std::invalid_argument`, aborting the program (modelled `none`) instead of
skipping the line with the state preserved. -/
theorem C2_counterexample : runLine initialSession "CREATE x y" = none := rfl

/-- C2 (amended): lines with too few arguments are silently skipped — no
output, session state unchanged — but a non-numeric token where an integer
is required (CREATE's capacity, DELETE's index in an active session)
raises an uncaught `std::stoi` exception that terminates the program. -/
theorem C2_malformed_lines :
    (∀ (st : Session) (rest : List String), ("CREATE" :: rest).length < 3 →
        runArgs st ("CREATE" :: rest) = some (st, [])) ∧
    (∀ (st : Session) (rest : List String), ("APPEND" :: rest).length < 2 →
        runArgs st ("APPEND" :: rest) = some (st, [])) ∧
    (∀ (st : Session) (rest : List String), ("REPLACE" :: rest).length < 3 →
        runArgs st ("REPLACE" :: rest) = some (st, [])) ∧
    (∀ (st : Session) (rest : List String), ("DELETE" :: rest).length < 2 →
        runArgs st ("DELETE" :: rest) = some (st, [])) ∧
    (∀ (st : Session) (t u : String) (rest : List String), stoi t = none →
        runArgs st ("CREATE" :: t :: u :: rest) = none) ∧
    (∀ (st : Session) (t : String) (rest : List String), st.created = true →
        stoi t = none → runArgs st ("DELETE" :: t :: rest) = none) := by
  refine ⟨?_, ?_, ?_, ?_, ?_, ?_⟩
  · intro st rest hlen
    simp only [runArgs]
    rw [if_pos trivial, if_pos hlen]
  · intro st rest hlen
    simp only [runArgs]
    rw [if_neg (by decide : ¬ ("APPEND" = "CREATE"))]
    by_cases hc : st.created = false
    · rw [if_pos hc]
    · rw [if_neg hc, if_pos trivial, if_pos hlen]
  · intro st rest hlen
    simp only [runArgs]
    rw [if_neg (by decide : ¬ ("REPLACE" = "CREATE"))]
    by_cases hc : st.created = false
    · rw [if_pos hc]
    · rw [if_neg hc, if_neg (by decide : ¬ ("REPLACE" = "APPEND")), if_pos trivial,
        if_pos hlen]
  · intro st rest hlen
    simp only [runArgs]
    rw [if_neg (by decide : ¬ ("DELETE" = "CREATE"))]
    by_cases hc : st.created = false
    · rw [if_pos hc]
    · rw [if_neg hc, if_neg (by decide : ¬ ("DELETE" = "APPEND")),
        if_neg (by decide : ¬ ("DELETE" = "REPLACE")), if_pos trivial, if_pos hlen]
  · intro st t u rest hs
    simp only [runArgs]
    rw [if_pos trivial]
    rw [if_neg (by simp only [List.length_cons]; omega :
      ¬ ("CREATE" :: t :: u :: rest).length < 3)]
    simp only [List.getD_cons_succ, List.getD_cons_zero]
    rw [hs]
  · intro st t rest hcr hs
    simp only [runArgs]
    rw [if_neg (by decide : ¬ ("DELETE" = "CREATE"))]
    rw [if_neg (by simp [hcr] : ¬ (st.created = false))]
    rw [if_neg (by decide : ¬ ("DELETE" = "APPEND"))]
    rw [if_neg (by decide : ¬ ("DELETE" = "REPLACE"))]
    rw [if_pos trivial]
    rw [if_neg (by simp only [List.length_cons]; omega :
      ¬ ("DELETE" :: t :: rest).length < 2)]
    simp only [List.getD_cons_succ, List.getD_cons_zero]
    rw [hs]

/-- C2 witness: a two-token CREATE line is skipped leaving the state
unchanged; `DELETE x` in an active session aborts the program. -/
theorem C2_malformed_lines_witness :
    runArgs initialSession ["CREATE", "5"] = some (initialSession, []) ∧
    runArgs (doCreate initialSession 0 "ab") ["DELETE", "x"] = none :=
  ⟨C2_malformed_lines.1 initialSession ["5"] (by decide),
   C2_malformed_lines.2.2.2.2.2 (doCreate initialSession 0 "ab") "x" [] rfl rfl⟩

/-- C3: the claim that pop() on an empty list fails with `EmptyError`, a
defined error result, is false for the code: both pop implementations
dereference the null head pointer on an empty list, so there is no defined
result at all (`none`) — unlike the spec-modelled pop, which returns the
defined `EmptyError` value. -/
theorem C3_counterexample :
    WStack.pop { nodes := [], totalWeight := 0, maxWeight := 0 } = none ∧
    RedoStack.pop [] = none ∧
    popAsSpecified { nodes := [], totalWeight := 0, maxWeight := 0 } =
      PopSpec.emptyError :=
  ⟨rfl, rfl, rfl⟩

/-- C3 (amended): pop on a NON-empty undo list removes and returns the
newest action, decreasing `totalWeight` by its weight with the clamp at 0,
and the redo pop is strict LIFO; on an empty list neither pop has any
defined result (callers must check `empty()` first). -/
theorem C3_pop_behavior :
    (∀ (s : WStack) (l : List Action) (a : Action), s.nodes = l ++ [a] →
        s.pop = some (a, { nodes := l,
                           totalWeight := clampNonneg (s.totalWeight - a.weight),
                           maxWeight := s.maxWeight })) ∧
    (∀ s : WStack, s.nodes = [] → s.pop = none) ∧
    (∀ (a : Action) (r : List Action), RedoStack.pop (a :: r) = some (a, r)) ∧
    RedoStack.pop ([] : List Action) = none :=
  ⟨pop_spec, pop_empty, fun _ _ => rfl, rfl⟩

/-- C3 witness: popping a one-element undo stack returns that action and
leaves the empty stack. -/
theorem C3_pop_behavior_witness :
    WStack.pop { nodes := [zeroRepl], totalWeight := 0, maxWeight := 0 } =
      some (zeroRepl, { nodes := [],
                        totalWeight := clampNonneg (0 - zeroRepl.weight),
                        maxWeight := 0 }) :=
  C3_pop_behavior.1 { nodes := [zeroRepl], totalWeight := 0, maxWeight := 0 }
    [] zeroRepl rfl

/-- C4: push and setMaxWeight both invoke the trim loop; the loop removes
the oldest node and subtracts its weight while the list is non-empty and
the total exceeds the cap, and stops otherwise; in particular a single
freshly-pushed action heavier than the cap is itself evicted when it is
the sole entry, leaving the undo list empty (that undo step is lost). -/
theorem C4_trim_evicts_oldest :
    (∀ (s : WStack) (a : Action),
        s.push a = WStack.trim { nodes := s.nodes ++ [a],
                                 totalWeight := s.totalWeight + a.weight,
                                 maxWeight := s.maxWeight }) ∧
    (∀ (s : WStack) (mw : Int),
        s.setMaxWeight mw = WStack.trim { nodes := s.nodes,
                                          totalWeight := s.totalWeight,
                                          maxWeight := if mw < 0 then 0 else mw }) ∧
    (∀ (mw tw : Int) (b : Action) (rest : List Action), mw < tw →
        trimLoop mw (b :: rest) tw = trimLoop mw rest (tw - b.weight)) ∧
    (∀ (mw tw : Int) (l : List Action), ¬ mw < tw → trimLoop mw l tw = (l, tw)) ∧
    (∀ (s : WStack) (a : Action), s.nodes = [] → s.totalWeight = 0 →
        s.maxWeight < a.weight →
        (s.push a).nodes = [] ∧ (s.push a).totalWeight = 0) := by
  refine ⟨fun s a => rfl, fun s mw => rfl, ?_, ?_, ?_⟩
  · intro mw tw b rest hlt
    simp [trimLoop, hlt]
  · intro mw tw l h
    exact trimLoop_noexceed h l
  · intro s a h0 ht hlt
    have hrec : ({ nodes := s.nodes ++ [a], totalWeight := s.totalWeight + a.weight,
                   maxWeight := s.maxWeight } : WStack) =
        { nodes := [a], totalWeight := a.weight, maxWeight := s.maxWeight } := by
      refine wstack_eq ?_ ?_ rfl
      · show s.nodes ++ [a] = [a]
        rw [h0]
        rfl
      · show s.totalWeight + a.weight = a.weight
        rw [ht]
        ring
    have he : s.push a =
        WStack.trim { nodes := [a], totalWeight := a.weight, maxWeight := s.maxWeight } := by
      unfold WStack.push
      rw [hrec]
    rw [he]
    unfold WStack.trim
    dsimp only
    rw [show trimLoop s.maxWeight [a] a.weight =
        trimLoop s.maxWeight [] (a.weight - a.weight) from by simp [trimLoop, hlt]]
    rw [sub_self]
    exact ⟨rfl, rfl⟩

/-- C4 witness: the spec's own scenario — capacity 2, a sole pushed action
of weight 3 is evicted immediately, leaving the undo list empty. -/
theorem C4_trim_evicts_oldest_witness :
    (WStack.push { nodes := [], totalWeight := 0, maxWeight := 2 }
        { prev := "abc", next := "abcxyz", weight := 3 }).nodes = [] ∧
    (WStack.push { nodes := [], totalWeight := 0, maxWeight := 2 }
        { prev := "abc", next := "abcxyz", weight := 3 }).totalWeight = 0 :=
  C4_trim_evicts_oldest.2.2.2.2 { nodes := [], totalWeight := 0, maxWeight := 2 }
    { prev := "abc", next := "abcxyz", weight := 3 } rfl rfl (by decide)

/-! ### Claims C5 to C10 -/

/-- C5: in every reachable session state, the undo list's cached
`totalWeight` equals the sum of its members' weights, is nonnegative, and
(trimming being applied eagerly on every push and on every setMaxWeight)
never exceeds `maxWeight`. -/
theorem C5_totalWeight_invariant (lines : List String) (p : Session × List String)
    (h : runLines initialSession lines = some p) :
    p.1.undoStack.totalWeight = sumWeights p.1.undoStack.nodes ∧
    0 ≤ p.1.undoStack.totalWeight ∧
    p.1.undoStack.totalWeight ≤ p.1.undoStack.maxWeight := by
  have inv := inv_reachable h
  refine ⟨inv.tw_eq, ?_, inv.tw_le⟩
  rw [inv.tw_eq]
  exact sumWeights_nonneg inv.undo_wts

/-- C5 witness at the state after `CREATE 2 abc` and `APPEND x`. -/
theorem C5_totalWeight_invariant_witness :
    (⟨"abcx", true, 2, ⟨[⟨"abc", "abcx", 1⟩], 1, 2⟩, []⟩ : Session).undoStack.totalWeight =
      sumWeights (⟨"abcx", true, 2, ⟨[⟨"abc", "abcx", 1⟩], 1, 2⟩, []⟩ :
        Session).undoStack.nodes ∧
    0 ≤ (⟨"abcx", true, 2, ⟨[⟨"abc", "abcx", 1⟩], 1, 2⟩, []⟩ :
        Session).undoStack.totalWeight ∧
    (⟨"abcx", true, 2, ⟨[⟨"abc", "abcx", 1⟩], 1, 2⟩, []⟩ :
        Session).undoStack.totalWeight ≤
      (⟨"abcx", true, 2, ⟨[⟨"abc", "abcx", 1⟩], 1, 2⟩, []⟩ :
        Session).undoStack.maxWeight :=
  C5_totalWeight_invariant ["CREATE 2 abc", "APPEND x"]
    (⟨"abcx", true, 2, ⟨[⟨"abc", "abcx", 1⟩], 1, 2⟩, []⟩, []) (by decide)

/-- C6: the parenthetical claim that capacity 0 forces the Redo re-push to
evict the re-pushed action every time is false: after `CREATE 0 ab` and the
zero-weight `REPLACE z q`, an UNDO then a REDO re-pushes the action and it
remains on the undo list (length 1), because trimming only runs while the
total strictly exceeds the cap. -/
theorem C6_counterexample :
    (runLines initialSession ["CREATE 0 ab", "REPLACE z q", "UNDO", "REDO"]).map
        (fun p => (p.1.current, p.1.undoStack.nodes.length)) = some ("ab", 1) := rfl

/-- C6 (amended): in every reachable state with a non-empty undo list, an
Undo followed immediately by a Redo restores the buffer to its pre-Undo
value in all cases — weight-cap eviction on the re-push can drop history
entries but never changes the buffer — and with capacity 0 the re-pushed
action is evicted exactly when its weight is positive. -/
theorem C6_undo_redo_roundtrip :
    (∀ (lines : List String) (p : Session × List String),
        runLines initialSession lines = some p → p.1.undoStack.nodes ≠ [] →
        ∃ s1 s2 : Session, doUndo p.1 = some (s1, []) ∧ doRedo s1 = some (s2, []) ∧
          s2.current = p.1.current) ∧
    (∀ (u : WStack) (a : Action), u.maxWeight = 0 → u.totalWeight = 0 →
        u.totalWeight = sumWeights u.nodes → (∀ b ∈ u.nodes, 0 ≤ b.weight) →
        0 ≤ a.weight → ((u.push a).nodes = [] ↔ 0 < a.weight)) := by
  constructor
  · intro lines p h hne
    have inv := inv_reachable h
    obtain ⟨l, a, hn, hu⟩ := doUndo_nonempty hne
    have hglast : p.1.undoStack.nodes.getLast? = some a := by
      rw [hn]
      exact List.getLast?_concat l
    refine ⟨_, _, hu, doRedo_cons rfl, ?_⟩
    exact (inv.top_next a hglast).symm
  · intro u a hmw htw hsum hwts hwa
    constructor
    · intro hnil
      by_contra hno
      have hz : a.weight = 0 := by omega
      obtain ⟨h1, _⟩ := push_no_evict_of_le u a (by omega)
      rw [h1] at hnil
      exact absurd hnil (by simp)
    · intro hpos
      have hall : ∀ b ∈ u.nodes, b.weight = 0 :=
        weights_all_zero u.nodes (by omega) hwts
      show (WStack.trim { nodes := u.nodes ++ [a],
                          totalWeight := u.totalWeight + a.weight,
                          maxWeight := u.maxWeight }).nodes = []
      unfold WStack.trim
      dsimp only
      rw [hmw, (by omega : u.totalWeight + a.weight = a.weight)]
      rw [trimLoop_drops_all a hpos u.nodes hall]

/-- C6 witness: a reachable state where Undo then Redo restores the buffer
`"abcde"`, and the capacity-0 eviction criterion at a zero-weight action. -/
theorem C6_undo_redo_roundtrip_witness :
    (∃ s1 s2 : Session,
        doUndo (⟨"abcde", true, 100, ⟨[⟨"abc", "abcde", 2⟩], 2, 100⟩, []⟩ : Session) =
          some (s1, []) ∧
        doRedo s1 = some (s2, []) ∧
        s2.current = (⟨"abcde", true, 100, ⟨[⟨"abc", "abcde", 2⟩], 2, 100⟩, []⟩ :
          Session).current) ∧
    ((WStack.push ⟨[], 0, 0⟩ zeroRepl).nodes = [] ↔ (0:Int) < zeroRepl.weight) :=
  ⟨C6_undo_redo_roundtrip.1 ["CREATE 100 abc", "APPEND de"]
      (⟨"abcde", true, 100, ⟨[⟨"abc", "abcde", 2⟩], 2, 100⟩, []⟩, []) (by decide)
      (by decide),
   C6_undo_redo_roundtrip.2 ⟨[], 0, 0⟩ zeroRepl rfl rfl rfl (by simp) (by decide)⟩

/-- C7: in every reachable state the buffer equals the `next` (after) text
of the undo list's newest node when one exists, and a successful Undo sets
the buffer to the `prev` (before) text of the action it just moved to the
redo list. -/
theorem C7_buffer_matches_top (lines : List String) (p : Session × List String)
    (h : runLines initialSession lines = some p) :
    (∀ a : Action, p.1.undoStack.nodes.getLast? = some a → p.1.current = a.next) ∧
    (p.1.undoStack.nodes ≠ [] →
      ∃ (s1 : Session) (a : Action), doUndo p.1 = some (s1, []) ∧
        s1.redoStack.head? = some a ∧ s1.current = a.prev) := by
  have inv := inv_reachable h
  refine ⟨inv.top_next, ?_⟩
  intro hne
  obtain ⟨l, a, hn, hu⟩ := doUndo_nonempty hne
  exact ⟨_, a, hu, rfl, rfl⟩

/-- C7 witness at the state after `CREATE 100 abc` and `APPEND de`. -/
theorem C7_buffer_matches_top_witness :
    (∀ a : Action,
        (⟨"abcde", true, 100, ⟨[⟨"abc", "abcde", 2⟩], 2, 100⟩, []⟩ :
          Session).undoStack.nodes.getLast? = some a →
        (⟨"abcde", true, 100, ⟨[⟨"abc", "abcde", 2⟩], 2, 100⟩, []⟩ :
          Session).current = a.next) ∧
    ((⟨"abcde", true, 100, ⟨[⟨"abc", "abcde", 2⟩], 2, 100⟩, []⟩ :
        Session).undoStack.nodes ≠ [] →
      ∃ (s1 : Session) (a : Action),
        doUndo (⟨"abcde", true, 100, ⟨[⟨"abc", "abcde", 2⟩], 2, 100⟩, []⟩ : Session) =
          some (s1, []) ∧
        s1.redoStack.head? = some a ∧ s1.current = a.prev) :=
  C7_buffer_matches_top ["CREATE 100 abc", "APPEND de"]
    (⟨"abcde", true, 100, ⟨[⟨"abc", "abcde", 2⟩], 2, 100⟩, []⟩, []) (by decide)

/-- C8: every mutating command and every re-initialization leaves the redo
list empty; a successful Undo only pushes onto the redo list and a Redo
only pops one entry (neither clears it); and immediately after a mutation
the empty redo list makes REDO fail with the nothing-to-redo error. -/
theorem C8_redo_list_clearing :
    (∀ (st : Session) (t : String), (doAppend st t).redoStack = []) ∧
    (∀ (st : Session) (f r : Char), (doReplace st f r).redoStack = []) ∧
    (∀ (st : Session) (i : Int), (doDelete st i).redoStack = []) ∧
    (∀ (st : Session) (mw : Int) (txt : String), (doCreate st mw txt).redoStack = []) ∧
    (∀ (st : Session) (p : Session × List String), doUndo st = some p →
        p.1.redoStack = st.redoStack ∨ ∃ a, p.1.redoStack = a :: st.redoStack) ∧
    (∀ (st : Session) (p : Session × List String), doRedo st = some p →
        p.1.redoStack = st.redoStack ∨ p.1.redoStack = st.redoStack.tail) ∧
    (∀ st : Session, st.redoStack = [] →
        doRedo st = some (st, ["Error: Nothing to redo."])) ∧
    (∀ (st : Session) (t : String), doRedo (doAppend st t) =
        some (doAppend st t, ["Error: Nothing to redo."])) := by
  refine ⟨fun _ _ => rfl, fun _ _ _ => rfl, fun _ _ => rfl, fun _ _ _ => rfl,
    ?_, ?_, ?_, ?_⟩
  · intro st p h
    by_cases hne : st.undoStack.nodes = []
    · rw [doUndo_empty hne] at h
      injection h with h'
      subst h'
      left
      rfl
    · obtain ⟨l, a, hn, hu⟩ := doUndo_nonempty hne
      rw [hu] at h
      injection h with h'
      subst h'
      right
      exact ⟨a, rfl⟩
  · intro st p h
    cases hr : st.redoStack with
    | nil =>
      rw [doRedo_empty hr] at h
      injection h with h'
      subst h'
      left
      exact hr
    | cons a r =>
      rw [doRedo_cons hr] at h
      injection h with h'
      subst h'
      right
      rfl
  · intro st h
    exact doRedo_empty h
  · intro st t
    exact doRedo_empty rfl

/-- C8 witness: an erroring Undo leaves the redo list unchanged, and a REDO
on the fresh session fails with the nothing-to-redo error. -/
theorem C8_redo_list_clearing_witness :
    (initialSession.redoStack = initialSession.redoStack ∨
      ∃ a, initialSession.redoStack = a :: initialSession.redoStack) ∧
    doRedo initialSession = some (initialSession, ["Error: Nothing to redo."]) :=
  ⟨C8_redo_list_clearing.2.2.2.2.1 initialSession
      (initialSession, ["Error: Nothing to undo."]) rfl,
   C8_redo_list_clearing.2.2.2.2.2.2.1 initialSession rfl⟩

/-- C9: pushing a zero-weight action never evicts anything (trim runs only
while the total strictly exceeds the cap), so a capacity-0 session keeps
one undo entry per zero-weight mutation: n matchless `REPLACE z q`
commands leave n entries and the n following UNDO commands all succeed
with no error output, returning the buffer to `"ab"` — the weight cap
bounds cumulative weight, never the number of entries. -/
theorem C9_zero_weight_entries (n : Nat) :
    (∀ (u : WStack) (a : Action), a.weight = 0 → u.totalWeight ≤ u.maxWeight →
        (u.push a).nodes = u.nodes ++ [a]) ∧
    runLines initialSession ("CREATE 0 ab" :: List.replicate n "REPLACE z q") =
      some (capZeroState (List.replicate n zeroRepl) [], []) ∧
    runLines initialSession
        ("CREATE 0 ab" :: (List.replicate n "REPLACE z q" ++ List.replicate n "UNDO")) =
      some (capZeroState [] (List.replicate n zeroRepl), []) := by
  have hc : runLine initialSession "CREATE 0 ab" = some (capZeroState [] [], []) := rfl
  have hc0 : capZeroState [] [] = capZeroState (List.replicate 0 zeroRepl) [] := rfl
  refine ⟨?_, ?_, ?_⟩
  · intro u a hz hle
    exact (push_no_evict_of_le u a (by omega)).1
  · simp only [runLines]
    rw [hc]
    dsimp only
    rw [hc0, replace_phase n 0, Nat.zero_add]
    rfl
  · simp only [runLines]
    rw [hc]
    dsimp only
    rw [runLines_append]
    rw [hc0, replace_phase n 0, Nat.zero_add]
    dsimp only
    rw [undo_phase n []]
    rw [List.append_nil]
    rfl

/-- C9 witness at n = 2 and a concrete zero-weight push. -/
theorem C9_zero_weight_entries_witness :
    (WStack.push { nodes := [], totalWeight := 0, maxWeight := 0 } zeroRepl).nodes =
      [] ++ [zeroRepl] ∧
    runLines initialSession ("CREATE 0 ab" :: List.replicate 2 "REPLACE z q") =
      some (capZeroState (List.replicate 2 zeroRepl) [], []) :=
  ⟨(C9_zero_weight_entries 2).1 { nodes := [], totalWeight := 0, maxWeight := 0 }
      zeroRepl rfl (by decide),
   (C9_zero_weight_entries 2).2.1⟩

/-- C10: the command loop calls pop only behind an `empty()` check, so on
every state an UNDO or REDO line never reaches the unguarded null-pointer
dereference inside either pop — these commands never abort. -/
theorem C10_pop_never_crashes (st : Session) (rest : List String) :
    doUndo st ≠ none ∧ doRedo st ≠ none ∧
    runArgs st ("UNDO" :: rest) ≠ none ∧ runArgs st ("REDO" :: rest) ≠ none := by
  refine ⟨doUndo_isSome st, doRedo_isSome st, ?_, ?_⟩
  · simp only [runArgs]
    rw [if_neg (by decide : ¬ ("UNDO" = "CREATE"))]
    by_cases hc : st.created = false
    · rw [if_pos hc]
      simp
    · rw [if_neg hc]
      rw [if_neg (by decide : ¬ ("UNDO" = "APPEND"))]
      rw [if_neg (by decide : ¬ ("UNDO" = "REPLACE"))]
      rw [if_neg (by decide : ¬ ("UNDO" = "DELETE"))]
      rw [if_pos trivial]
      exact doUndo_isSome st
  · simp only [runArgs]
    rw [if_neg (by decide : ¬ ("REDO" = "CREATE"))]
    by_cases hc : st.created = false
    · rw [if_pos hc]
      simp
    · rw [if_neg hc]
      rw [if_neg (by decide : ¬ ("REDO" = "APPEND"))]
      rw [if_neg (by decide : ¬ ("REDO" = "REPLACE"))]
      rw [if_neg (by decide : ¬ ("REDO" = "DELETE"))]
      rw [if_neg (by decide : ¬ ("REDO" = "UNDO"))]
      rw [if_pos trivial]
      exact doRedo_isSome st

/-- C10 witness: UNDO on the fresh (empty-stack) session does not crash. -/
theorem C10_pop_never_crashes_witness :
    doUndo initialSession ≠ none ∧ runArgs initialSession ["UNDO"] ≠ none :=
  ⟨(C10_pop_never_crashes initialSession []).1,
   (C10_pop_never_crashes initialSession []).2.2.1⟩

end UndoRedo
